import Mathlib

/-!
Verification of the knowledge-base inference engine of a Minesweeper player
(`minesweeper.py`, classes `Sentence` and `MinesweeperAI`).

Modelling conventions:
* Grid coordinates are pairs of integers (`Cell := ℤ × ℤ`), as in Python.
* A Python `set` of cells is modelled as a duplicate-free `List Cell`; the list
  order is a determinization of Python's unspecified set-iteration order.
  `set.add` becomes `List.insert` (a no-op when the element is present),
  `set.remove` / `discard` becomes `List.erase`, `set.difference` becomes a
  `filter`, and `==` on sets becomes mutual inclusion (`listSetEq`).
* Machine integers are `ℤ` (Python integers are unbounded, so no wraparound).
* Every definition is executable, so concrete game traces evaluate by `decide`.
-/

abbrev Cell := ℤ × ℤ

/-- Python set equality for cell lists: mutual inclusion. -/
def listSetEq (a b : List Cell) : Prop := a ⊆ b ∧ b ⊆ a

instance (a b : List Cell) : Decidable (listSetEq a b) := by
  unfold listSetEq; infer_instance

/-- Boolean form of `listSetEq`, used inside executable filters. -/
def setEqB (a b : List Cell) : Bool := decide (listSetEq a b)

/-- A logical statement about the game: exactly `count` of `cells` are mines.
Embeds the Python class `Sentence` (constraint over a set of board cells). -/
structure Sentence where
  cells : List Cell
  count : ℤ
deriving DecidableEq

/-- `Sentence.known_mines`: if `len(self.cells) == self.count`, every cell is
a known mine and a copy of `cells` is returned, else the empty set. -/
def Sentence.known_mines (s : Sentence) : List Cell :=
  if (s.cells.length : ℤ) = s.count then s.cells else []

/-- `Sentence.known_safes`: if `self.count == 0`, every cell is known safe and
a copy of `cells` is returned, else the empty set. -/
def Sentence.known_safes (s : Sentence) : List Cell :=
  if s.count = 0 then s.cells else []

/-- `Sentence.mark_mine`: if the cell is in `cells`, remove it and decrement
`count`; otherwise do nothing. -/
def Sentence.mark_mine (s : Sentence) (c : Cell) : Sentence :=
  if c ∈ s.cells then ⟨s.cells.erase c, s.count - 1⟩ else s

/-- `Sentence.mark_safe`: remove the cell from `cells` if present (the Python
body wraps `remove` in `try/except`, so absence is a silent no-op); `count` is
unchanged. -/
def Sentence.mark_safe (s : Sentence) (c : Cell) : Sentence :=
  ⟨s.cells.erase c, s.count⟩

/-- State of the Python class `MinesweeperAI`. -/
structure AI where
  height : ℤ
  width : ℤ
  moves_made : List Cell
  safes : List Cell
  mines : List Cell
  knowledge : List Sentence
deriving DecidableEq

/-- `MinesweeperAI.__init__`: empty knowledge state for an `h × w` grid. -/
def AI.init (h w : ℤ) : AI := ⟨h, w, [], [], [], []⟩

/-- `MinesweeperAI.mark_mine`: add the cell to `mines` and propagate
`Sentence.mark_mine` through every held sentence. -/
def AI.mark_mine (ai : AI) (c : Cell) : AI :=
  { ai with mines := ai.mines.insert c,
            knowledge := ai.knowledge.map (Sentence.mark_mine · c) }

/-- `MinesweeperAI.mark_safe`: add the cell to `safes` and propagate
`Sentence.mark_safe` through every held sentence. -/
def AI.mark_safe (ai : AI) (c : Cell) : AI :=
  { ai with safes := ai.safes.insert c,
            knowledge := ai.knowledge.map (Sentence.mark_safe · c) }

/-- `MinesweeperAI.is_cell_valid`: bounds check used for neighbours. -/
def AI.is_cell_valid (ai : AI) (c : Cell) : Bool :=
  if c.1 < 0 ∨ c.1 ≥ ai.height ∨ c.2 < 0 ∨ c.2 ≥ ai.width then false else true

/-- The nine `(i, j)` offsets of the Python double loop
`for i in range(-1, 2): for j in range(-1, 2)`, in loop order.  Note the loop
includes the offset `(0, 0)` (the revealed cell itself). -/
def offsets : List (ℤ × ℤ) :=
  [(-1,-1),(-1,0),(-1,1),(0,-1),(0,0),(0,1),(1,-1),(1,0),(1,1)]

/-- One iteration of the sentence-building loop in `add_knowledge`: given the
accumulated `(cells, count)` and a candidate coordinate, skip it when out of
bounds; decrement `count` when it is a known mine; skip it when already a made
move; otherwise add it to `cells`. -/
def nbStep (ai : AI) (acc : List Cell × ℤ) (n : Cell) : List Cell × ℤ :=
  if ai.is_cell_valid n then
    if n ∈ ai.mines then (acc.1, acc.2 - 1)
    else if n ∈ ai.moves_made then acc
    else (acc.1.insert n, acc.2)
  else acc

/-- The sentence `add_knowledge` builds from the revealed cell's 3×3
neighbourhood block and appends to `knowledge`. -/
def AI.buildSentence (ai : AI) (cell : Cell) (cnt : ℤ) : Sentence :=
  let acc := offsets.foldl (fun a o => nbStep ai a (cell.1 + o.1, cell.2 + o.2)) ([], cnt)
  ⟨acc.1, acc.2⟩

/-- Steps 1–2 of `add_knowledge`: add the revealed cell to `moves_made`, then
mark it safe. -/
def AI.recordMove (ai : AI) (cell : Cell) : AI :=
  AI.mark_safe { ai with moves_made := ai.moves_made.insert cell } cell

/-- Steps 1–3 of `add_knowledge`: record the move, mark the cell safe, build
the new sentence and append it to `knowledge`. -/
def AI.ingest (ai : AI) (cell : Cell) (cnt : ℤ) : AI :=
  let ai2 := ai.recordMove cell
  { ai2 with knowledge := ai2.knowledge ++ [ai2.buildSentence cell cnt] }

/-- `for cell in known_mines: self.mark_mine(cell)` — fold of single marks. -/
def AI.markMinesList (ai : AI) (l : List Cell) : AI := l.foldl AI.mark_mine ai

/-- `for cell in known_safes: self.mark_safe(cell)` — fold of single marks. -/
def AI.markSafesList (ai : AI) (l : List Cell) : AI := l.foldl AI.mark_safe ai

/-- One iteration of the closure scan of `add_knowledge` at list index `i`:
extract `known_mines()` of the (possibly already mutated) `i`-th sentence and
mark each returned cell a mine, then extract `known_safes()` of the now-current
`i`-th sentence and mark each returned cell safe. -/
def closureStep (ai : AI) (i : ℕ) : AI :=
  let s := ai.knowledge.getD i ⟨[], 0⟩
  let ai1 := ai.markMinesList s.known_mines
  let s1 := ai1.knowledge.getD i ⟨[], 0⟩
  ai1.markSafesList s1.known_safes

/-- Step 4 of `add_knowledge` (`for sentence in self.knowledge: ...`): a single
linear scan over the held sentences; marking mutates all sentences in place, so
later iterations observe earlier updates.  The list length is invariant during
the scan. -/
def AI.closure (ai : AI) : AI :=
  (List.range ai.knowledge.length).foldl closureStep ai

/-- The pruning while-loop of `add_knowledge`: walking left to right, delete a
sentence with empty `cells`, and delete every later sentence whose cell set
equals the cell set of the current (surviving) sentence.  `seen` holds the
survivors to the left of the cursor. -/
def pruneGo (seen : List Sentence) : List Sentence → List Sentence
  | [] => []
  | s :: rest =>
      if s.cells = [] ∨ seen.any (fun t => setEqB t.cells s.cells) then
        pruneGo seen rest
      else
        s :: pruneGo (s :: seen) rest

/-- Step 5 of `add_knowledge`: remove empty and duplicate sentences. -/
def pruneKnowledge (l : List Sentence) : List Sentence := pruneGo [] l

/-- Step 5 of `add_knowledge` as a state transformer. -/
def AI.prune (ai : AI) : AI := { ai with knowledge := pruneKnowledge ai.knowledge }

/-- The body of the subset-inference double loop for a fixed pair `(s1, s2)`
(`s2` ranges over `self.knowledge[i:]`): skip when `s2` is empty; when one cell
list is strictly longer and contains the other, derive the set difference with
the count difference. -/
def deriveFrom (s1 s2 : Sentence) : Option Sentence :=
  if s2.cells.length = 0 then none
  else if s1.cells.length > s2.cells.length ∧ s2.cells ⊆ s1.cells then
    some ⟨s1.cells.filter (fun c => decide (c ∉ s2.cells)), s1.count - s2.count⟩
  else if s2.cells.length > s1.cells.length ∧ s1.cells ⊆ s2.cells then
    some ⟨s2.cells.filter (fun c => decide (c ∉ s1.cells)), s2.count - s1.count⟩
  else none

/-- Inner loop of subset inference for outer sentence `s1` over the suffix
starting at `s1` itself: skip everything when `s1` is empty. -/
def inferOne (s1 : Sentence) (l : List Sentence) : List Sentence :=
  if s1.cells.length = 0 then [] else l.filterMap (deriveFrom s1)

/-- Step 6 of `add_knowledge`: `new_knowledges`, collected over every outer
index `i` (inner loop over `self.knowledge[i:]`), in loop order. -/
def inferPairs : List Sentence → List Sentence
  | [] => []
  | s1 :: rest => inferOne s1 (s1 :: rest) ++ inferPairs rest

/-- Step 6 of `add_knowledge` as a state transformer: extend `knowledge` with
all derived sentences (no re-pruning afterwards). -/
def AI.infer (ai : AI) : AI :=
  { ai with knowledge := ai.knowledge ++ inferPairs ai.knowledge }

/-- `MinesweeperAI.add_knowledge`: ingest the revealed fact, run the closure
scan, prune, then run subset inference. -/
def AI.add_knowledge (ai : AI) (cell : Cell) (cnt : ℤ) : AI :=
  (((ai.ingest cell cnt).closure).prune).infer

/-- `MinesweeperAI.make_safe_move`: return the first known-safe cell not yet
played, or `none`; the state is returned unchanged (the method mutates
nothing). -/
def AI.make_safe_move (ai : AI) : Option Cell × AI :=
  (ai.safes.find? (fun c => decide (c ∉ ai.moves_made)), ai)

/-- `MinesweeperAI.make_random_move`: first in-bounds cell (row-major) that is
neither a known mine nor an already-made move, or `none`; state unchanged. -/
def AI.make_random_move (ai : AI) : Option Cell × AI :=
  (((List.range ai.height.toNat).flatMap fun i =>
      (List.range ai.width.toNat).map fun j => ((i : ℤ), (j : ℤ))).find?
    (fun c => decide (c ∉ ai.mines ∧ c ∉ ai.moves_made)), ai)

/-- The public operations of the engine, for statements quantifying over
operation sequences. -/
inductive EngineOp where
  | mkMine (c : Cell)
  | mkSafe (c : Cell)
  | addK (c : Cell) (n : ℤ)
  | safeMove
  | randomMove
deriving DecidableEq

def applyOp (ai : AI) : EngineOp → AI
  | .mkMine c => ai.mark_mine c
  | .mkSafe c => ai.mark_safe c
  | .addK c n => ai.add_knowledge c n
  | .safeMove => ai.make_safe_move.2
  | .randomMove => ai.make_random_move.2

/-- A whole engine lifetime: the operations applied in order to a state. -/
def applyOps (ai : AI) (ops : List EngineOp) : AI := ops.foldl applyOp ai

/-! ### Growth of the global fact sets -/

/-- `b` extends `a` on all three global fact sets. -/
def StateGrows (a b : AI) : Prop :=
  a.moves_made ⊆ b.moves_made ∧ a.safes ⊆ b.safes ∧ a.mines ⊆ b.mines

lemma stateGrows_refl (a : AI) : StateGrows a a :=
  ⟨fun _ h => h, fun _ h => h, fun _ h => h⟩

lemma stateGrows_trans {a b c : AI} (h1 : StateGrows a b) (h2 : StateGrows b c) :
    StateGrows a c :=
  ⟨fun _ h => h2.1 (h1.1 h), fun _ h => h2.2.1 (h1.2.1 h), fun _ h => h2.2.2 (h1.2.2 h)⟩

lemma subset_insert_list (c : Cell) (l : List Cell) : l ⊆ l.insert c :=
  fun _ h => List.mem_insert_iff.mpr (Or.inr h)

lemma grows_mark_mine (ai : AI) (c : Cell) : StateGrows ai (ai.mark_mine c) :=
  ⟨fun _ h => h, fun _ h => h, subset_insert_list c ai.mines⟩

lemma grows_mark_safe (ai : AI) (c : Cell) : StateGrows ai (ai.mark_safe c) :=
  ⟨fun _ h => h, subset_insert_list c ai.safes, fun _ h => h⟩

lemma grows_foldl {α : Type} (f : AI → α → AI)
    (hf : ∀ ai x, StateGrows ai (f ai x)) :
    ∀ (l : List α) (ai : AI), StateGrows ai (l.foldl f ai) := by
  intro l
  induction l with
  | nil => intro ai; exact stateGrows_refl ai
  | cons x xs ih => intro ai; exact stateGrows_trans (hf ai x) (ih (f ai x))

lemma grows_markMinesList (ai : AI) (l : List Cell) :
    StateGrows ai (ai.markMinesList l) :=
  grows_foldl AI.mark_mine grows_mark_mine l ai

lemma grows_markSafesList (ai : AI) (l : List Cell) :
    StateGrows ai (ai.markSafesList l) :=
  grows_foldl AI.mark_safe grows_mark_safe l ai

lemma grows_closureStep (ai : AI) (i : ℕ) : StateGrows ai (closureStep ai i) :=
  stateGrows_trans (grows_markMinesList ai _) (grows_markSafesList _ _)

lemma grows_closure (ai : AI) : StateGrows ai ai.closure :=
  grows_foldl closureStep grows_closureStep _ ai

lemma grows_ingest (ai : AI) (cell : Cell) (cnt : ℤ) :
    StateGrows ai (ai.ingest cell cnt) := by
  refine ⟨?_, ?_, ?_⟩ <;>
    simp only [AI.ingest, AI.mark_safe] <;>
    first
      | exact subset_insert_list cell ai.moves_made
      | exact subset_insert_list cell ai.safes
      | exact fun _ h => h

lemma grows_prune (ai : AI) : StateGrows ai ai.prune :=
  ⟨fun _ h => h, fun _ h => h, fun _ h => h⟩

lemma grows_infer (ai : AI) : StateGrows ai ai.infer :=
  ⟨fun _ h => h, fun _ h => h, fun _ h => h⟩

lemma grows_add_knowledge (ai : AI) (cell : Cell) (cnt : ℤ) :
    StateGrows ai (ai.add_knowledge cell cnt) :=
  stateGrows_trans (grows_ingest ai cell cnt)
    (stateGrows_trans (grows_closure _)
      (stateGrows_trans (grows_prune _) (grows_infer _)))

lemma grows_applyOp (ai : AI) (op : EngineOp) : StateGrows ai (applyOp ai op) := by
  cases op with
  | mkMine c => exact grows_mark_mine ai c
  | mkSafe c => exact grows_mark_safe ai c
  | addK c n => exact grows_add_knowledge ai c n
  | safeMove => exact stateGrows_refl ai
  | randomMove => exact stateGrows_refl ai

lemma grows_applyOps (ops : List EngineOp) (ai : AI) :
    StateGrows ai (applyOps ai ops) :=
  grows_foldl applyOp grows_applyOp ops ai

/-- C7: across any sequence of engine operations (mark_mine, mark_safe,
add_knowledge, and the move queries) the sets `safes`, `mines` and
`moves_made` only grow: every element present before the sequence is still
present after it, so the cardinalities are non-decreasing. -/
theorem C7_fact_sets_monotone (ops : List EngineOp) (ai : AI) :
    ai.safes ⊆ (applyOps ai ops).safes ∧
    ai.mines ⊆ (applyOps ai ops).mines ∧
    ai.moves_made ⊆ (applyOps ai ops).moves_made :=
  ⟨(grows_applyOps ops ai).2.1, (grows_applyOps ops ai).2.2, (grows_applyOps ops ai).1⟩

/-! ### Idempotence of marking -/

lemma insert_idem (c : Cell) (l : List Cell) : (l.insert c).insert c = l.insert c :=
  List.insert_of_mem (List.mem_insert_self c l)

lemma sentence_mark_safe_absent {s : Sentence} {c : Cell} (h : c ∉ s.cells) :
    s.mark_safe c = s := by
  cases s with
  | mk cs k => simp only [Sentence.mark_safe, List.erase_of_not_mem h]

lemma sentence_mark_safe_idem {s : Sentence} {c : Cell} (h : s.cells.Nodup) :
    (s.mark_safe c).mark_safe c = s.mark_safe c := by
  apply sentence_mark_safe_absent
  intro hc
  exact (h.mem_erase_iff.mp hc).1 rfl

lemma sentence_mark_mine_idem {s : Sentence} {c : Cell} (h : s.cells.Nodup) :
    (s.mark_mine c).mark_mine c = s.mark_mine c := by
  by_cases hc : c ∈ s.cells
  · have h1 : s.mark_mine c = ⟨s.cells.erase c, s.count - 1⟩ := by
      simp [Sentence.mark_mine, hc]
    have h2 : c ∉ s.cells.erase c := fun hm => (h.mem_erase_iff.mp hm).1 rfl
    rw [h1]
    simp [Sentence.mark_mine, h2]
  · simp [Sentence.mark_mine, hc]

lemma ai_mark_safe_idem (ai : AI) (c : Cell)
    (h : ∀ s ∈ ai.knowledge, s.cells.Nodup) :
    (ai.mark_safe c).mark_safe c = ai.mark_safe c := by
  cases ai with
  | mk ht wd mm sf mn kn =>
    simp only [AI.mark_safe, AI.mk.injEq, List.map_map, true_and]
    refine ⟨insert_idem c sf, ?_⟩
    apply List.map_congr_left
    intro a ha
    exact sentence_mark_safe_idem (h a ha)

lemma ai_mark_mine_idem (ai : AI) (c : Cell)
    (h : ∀ s ∈ ai.knowledge, s.cells.Nodup) :
    (ai.mark_mine c).mark_mine c = ai.mark_mine c := by
  cases ai with
  | mk ht wd mm sf mn kn =>
    simp only [AI.mark_mine, AI.mk.injEq, List.map_map, true_and]
    refine ⟨insert_idem c mn, ?_⟩
    apply List.map_congr_left
    intro a ha
    exact sentence_mark_mine_idem (h a ha)

/-- C8: on any engine state whose held sentences have duplicate-free cell
sets (which is true of every state the Python engine can reach, since its
cells are Python sets), calling `mark_safe(c)` twice in a row yields exactly
the same state — `safes`, `mines`, `moves_made` and every held sentence — as
calling it once, and likewise for `mark_mine(c)`.  At the sentence level,
`mark_safe` on a cell absent from the sentence's cell set is a no-op returning
the sentence unchanged (the model is a total function: the Python `try/except`
swallows the only possible error, so no error propagates). -/
theorem C8_marking_idempotent (ai : AI) (c : Cell)
    (h : ∀ s ∈ ai.knowledge, s.cells.Nodup) :
    (ai.mark_safe c).mark_safe c = ai.mark_safe c ∧
    (ai.mark_mine c).mark_mine c = ai.mark_mine c ∧
    ∀ s : Sentence, c ∉ s.cells → s.mark_safe c = s :=
  ⟨ai_mark_safe_idem ai c h, ai_mark_mine_idem ai c h,
   fun _ hc => sentence_mark_safe_absent hc⟩

/-- Concrete engine state used in witnesses: one held sentence. -/
def aiW : AI := ⟨2, 2, [], [], [], [⟨[(0,0),(0,1)], 1⟩]⟩

theorem C8_marking_idempotent_witness :
    ((aiW.mark_safe (0,0)).mark_safe (0,0) = aiW.mark_safe (0,0)) ∧
    ((aiW.mark_mine (0,0)).mark_mine (0,0) = aiW.mark_mine (0,0)) ∧
    (Sentence.mark_safe ⟨[(1,1)], 1⟩ (0,0) = ⟨[(1,1)], 1⟩) :=
  ⟨(C8_marking_idempotent aiW (0,0) (by decide)).1,
   (C8_marking_idempotent aiW (0,0) (by decide)).2.1,
   (C8_marking_idempotent aiW (0,0) (by decide)).2.2 ⟨[(1,1)], 1⟩ (by decide)⟩

/-! ### The safe-move query -/

/-- C9: `make_safe_move` never mutates the engine state; whenever it returns a
coordinate, that coordinate is in `safes` and not in `moves_made`; and whenever
at least one such coordinate exists it does return one (so `none` — the
Python `None` fall-through, modelled by `Option.none` — occurs only on
exhaustion).  The query is a total function, so no fault is raised. -/
theorem C9_make_safe_move_spec (ai : AI) :
    (ai.make_safe_move.2 = ai) ∧
    (∀ c : Cell, ai.make_safe_move.1 = some c → c ∈ ai.safes ∧ c ∉ ai.moves_made) ∧
    ((∃ c ∈ ai.safes, c ∉ ai.moves_made) → ∃ c, ai.make_safe_move.1 = some c) := by
  refine ⟨rfl, ?_, ?_⟩
  · intro c hc
    refine ⟨List.mem_of_find?_eq_some hc, ?_⟩
    have := List.find?_some hc
    exact of_decide_eq_true this
  · rintro ⟨c, hc, hcm⟩
    cases hfind : ai.make_safe_move.1 with
    | some a => exact ⟨a, rfl⟩
    | none =>
        exfalso
        have := List.find?_eq_none.mp hfind c hc
        simp only [decide_eq_true_eq] at this
        exact this hcm

/-- Concrete engine state for the C9 witness. -/
def aiW9 : AI := ⟨2, 2, [], [(0,1)], [], []⟩

theorem C9_make_safe_move_spec_witness :
    (aiW9.make_safe_move.2 = aiW9) ∧ (∃ c, aiW9.make_safe_move.1 = some c) :=
  ⟨(C9_make_safe_move_spec aiW9).1,
   (C9_make_safe_move_spec aiW9).2.2 ⟨(0,1), by decide, by decide⟩⟩

/-! ### Out-of-bounds revealed cells (C6) -/

/-- C6 counterexample: on a fresh 2×2 engine, calling `add_knowledge` with the
out-of-bounds cell `(5,5)` is not rejected: the cell is silently added to
`moves_made` and `safes` (its empty constraint is appended and then pruned);
there is no error result, contradicting the claim that an out-of-bounds cell
is rejected deterministically rather than silently ingested. -/
theorem C6_out_of_bounds_counterexample :
    ¬ (AI.is_cell_valid (AI.init 2 2) (5,5) = true) ∧
    ((5,5) : Cell) ∈ ((AI.init 2 2).add_knowledge (5,5) 0).moves_made ∧
    ((5,5) : Cell) ∈ ((AI.init 2 2).add_knowledge (5,5) 0).safes ∧
    ((AI.init 2 2).add_knowledge (5,5) 0).knowledge = [] := by decide

lemma mem_moves_ingest (ai : AI) (cell : Cell) (cnt : ℤ) :
    cell ∈ (ai.ingest cell cnt).moves_made := by
  simp only [AI.ingest, AI.mark_safe]
  exact List.mem_insert_self cell ai.moves_made

lemma mem_safes_ingest (ai : AI) (cell : Cell) (cnt : ℤ) :
    cell ∈ (ai.ingest cell cnt).safes := by
  simp only [AI.ingest, AI.mark_safe]
  exact List.mem_insert_self cell _

lemma grows_after_ingest (ai : AI) :
    StateGrows ai ((ai.closure.prune).infer) :=
  stateGrows_trans (grows_closure ai)
    (stateGrows_trans (grows_prune _) (grows_infer _))

/-- C6 amended: `add_knowledge` performs no bounds check on the revealed cell
itself (only neighbours pass through `is_cell_valid`): a call with an
out-of-bounds cell is processed normally, and the cell ends up recorded in
both `moves_made` and `safes`; no rejection distinguishable from normal
processing exists. -/
theorem C6_out_of_bounds_ingested (ai : AI) (cell : Cell) (cnt : ℤ)
    (_h : ai.is_cell_valid cell = false) :
    cell ∈ (ai.add_knowledge cell cnt).moves_made ∧
    cell ∈ (ai.add_knowledge cell cnt).safes :=
  ⟨(grows_after_ingest (ai.ingest cell cnt)).1 (mem_moves_ingest ai cell cnt),
   (grows_after_ingest (ai.ingest cell cnt)).2.1 (mem_safes_ingest ai cell cnt)⟩

theorem C6_out_of_bounds_ingested_witness :
    ((7,0) : Cell) ∈ ((AI.init 3 3).add_knowledge (7,0) 1).moves_made ∧
    ((7,0) : Cell) ∈ ((AI.init 3 3).add_knowledge (7,0) 1).safes :=
  C6_out_of_bounds_ingested (AI.init 3 3) (7,0) 1 (by decide)

/-! ### Negative counts (C5) -/

/-- The engine state after revealing `(0,1)` with count 1 and then `(1,0)`
with count 2 on a fresh 2×3 grid. -/
def aiC5 : AI := ((AI.init 2 3).add_knowledge (0,1) 1).add_knowledge (1,0) 2

/-- C5 counterexample: the second `add_knowledge` call leaves the sentence
`{(0,2),(1,2)} = -1` in `knowledge` — a negative count produced by the two
`mark_mine` decrements of the closure pass — and the call completes normally
(the final state is an ordinary state, with no contradiction reported),
contradicting the claim that such a call aborts and surfaces a failure. -/
theorem C5_negative_count_counterexample :
    (⟨[(1,2),(0,2)], -1⟩ : Sentence) ∈ aiC5.knowledge ∧
    (aiC5.knowledge.getD 0 ⟨[], 0⟩).count < 0 := by decide

/-- C5 amended: `add_knowledge` contains no contradiction detection at all: a
derivation that yields a negative count simply stores it.  In the concrete run
of `aiC5` the resulting knowledge base is exactly the negative-count sentence,
the value is kept verbatim (not clamped to 0), and the engine keeps accepting
further calls as if nothing happened. -/
theorem C5_negative_count_kept :
    aiC5.knowledge = [⟨[(1,2),(0,2)], -1⟩] ∧
    ((1,2) : Cell) ∈ (aiC5.add_knowledge (1,2) 0).moves_made := by decide

/-! ### The closure pass (C2) -/

/-- The state reached inside the second `add_knowledge` call of a concrete
2×3 game, just after the closure pass completes (before pruning). -/
def aiC2mid : AI := (((AI.init 2 3).add_knowledge (0,1) 2).ingest (1,0) 0).closure

/-- C2 counterexample: after the closure pass of the second call, the held
sentence `{(0,2),(1,2)} = 2` has `count = |cells|` with nonempty cells, yet
`(0,2)` (and `(1,2)`) is not in `mines`: the sentence reached the
all-mines shape only through safe-markings performed *after* its scan
position, and the single linear scan never revisits it. -/
theorem C2_closure_counterexample :
    ((aiC2mid.knowledge.getD 0 ⟨[], 0⟩).cells.length : ℤ)
        = (aiC2mid.knowledge.getD 0 ⟨[], 0⟩).count ∧
    (aiC2mid.knowledge.getD 0 ⟨[], 0⟩).cells ≠ [] ∧
    ((0,2) : Cell) ∈ (aiC2mid.knowledge.getD 0 ⟨[], 0⟩).cells ∧
    ((0,2) : Cell) ∉ aiC2mid.mines := by decide

lemma mem_markMinesList_mines :
    ∀ (l : List Cell) (ai : AI), ∀ c ∈ l, c ∈ (ai.markMinesList l).mines := by
  intro l
  induction l with
  | nil => intro ai c hc; cases hc
  | cons x xs ih =>
      intro ai c hc
      have hstep : AI.markMinesList ai (x :: xs) = AI.markMinesList (ai.mark_mine x) xs := rfl
      rcases List.mem_cons.mp hc with h | h
      · have hx : x ∈ (ai.mark_mine x).mines := by
          simp only [AI.mark_mine]
          exact List.mem_insert_self x ai.mines
        rw [hstep, h]
        exact (grows_markMinesList (ai.mark_mine x) xs).2.2 hx
      · rw [hstep]; exact ih (ai.mark_mine x) c h

lemma mem_markSafesList_safes :
    ∀ (l : List Cell) (ai : AI), ∀ c ∈ l, c ∈ (ai.markSafesList l).safes := by
  intro l
  induction l with
  | nil => intro ai c hc; cases hc
  | cons x xs ih =>
      intro ai c hc
      have hstep : AI.markSafesList ai (x :: xs) = AI.markSafesList (ai.mark_safe x) xs := rfl
      rcases List.mem_cons.mp hc with h | h
      · have hx : x ∈ (ai.mark_safe x).safes := by
          simp only [AI.mark_safe]
          exact List.mem_insert_self x ai.safes
        rw [hstep, h]
        exact (grows_markSafesList (ai.mark_safe x) xs).2.1 hx
      · rw [hstep]; exact ih (ai.mark_safe x) c h

lemma markSafesList_mines (l : List Cell) :
    ∀ ai : AI, (ai.markSafesList l).mines = ai.mines := by
  induction l with
  | nil => intro ai; rfl
  | cons x xs ih =>
      intro ai
      have hstep : AI.markSafesList ai (x :: xs) = AI.markSafesList (ai.mark_safe x) xs := rfl
      rw [hstep, ih]
      rfl

/-- C2 amended: every fact the single closure scan actually extracts does end
up in the global sets: if `i` is any position of the scan (witnessed by a
decomposition of the index list), all cells returned by `known_mines()` of the
`i`-th sentence at the moment it is scanned are in `mines` when the pass
completes, and all cells returned by `known_safes()` of that sentence (read
after the mine-marking of the same iteration, as the Python body does) are in
`safes`.  Sentences that reach the all-mines or all-safes shape only *after*
their scan position are not revisited in the same pass (see the
counterexample); they are only picked up by a later call's scan. -/
theorem C2_closure_scanned_facts_marked (ai : AI) (i : ℕ) (pre post : List ℕ)
    (hsplit : List.range ai.knowledge.length = pre ++ i :: post) :
    (∀ c ∈ ((pre.foldl closureStep ai).knowledge.getD i ⟨[], 0⟩).known_mines,
        c ∈ ai.closure.mines) ∧
    (∀ c ∈ (((pre.foldl closureStep ai).markMinesList
              ((pre.foldl closureStep ai).knowledge.getD i ⟨[], 0⟩).known_mines).knowledge.getD
               i ⟨[], 0⟩).known_safes,
        c ∈ ai.closure.safes) := by
  have hclose : ai.closure = post.foldl closureStep
      (closureStep (pre.foldl closureStep ai) i) := by
    rw [AI.closure, hsplit, List.foldl_append]
    rfl
  set mid := pre.foldl closureStep ai with hmid
  have hstep : closureStep mid i =
      (mid.markMinesList (mid.knowledge.getD i ⟨[], 0⟩).known_mines).markSafesList
        (((mid.markMinesList (mid.knowledge.getD i ⟨[], 0⟩).known_mines).knowledge.getD
          i ⟨[], 0⟩).known_safes) := rfl
  constructor
  · intro c hc
    rw [hclose]
    apply (grows_foldl closureStep grows_closureStep post _).2.2
    rw [hstep, markSafesList_mines]
    exact mem_markMinesList_mines _ mid c hc
  · intro c hc
    rw [hclose]
    apply (grows_foldl closureStep grows_closureStep post _).2.1
    rw [hstep]
    exact mem_markSafesList_safes _ _ c hc

/-- Concrete engine state for the C2 witness: one all-mines sentence. -/
def aiW2 : AI := ⟨2, 2, [], [], [], [⟨[(0,0)], 1⟩]⟩

theorem C2_closure_scanned_facts_marked_witness :
    ((0,0) : Cell) ∈ aiW2.closure.mines :=
  (C2_closure_scanned_facts_marked aiW2 0 [] [] (by decide)).1 (0,0) (by decide)

/-! ### Pruning (C4) -/

/-- The engine state after a concrete 3×4 game: reveal `(1,0)`, mark the middle
column as mines, reveal `(1,2)`, mark the right column safe, reveal `(1,1)`.
After pruning, the last call holds `B = {(0,0),(2,0)} = 1`,
`C = {(0,2),(2,2)} = 1` and `A = {(0,0),(0,2),(2,0),(2,2)} = 2`, and its
subset-inference step then derives `A − B` (structurally equal to `C`) and
`A − C` (structurally equal to `B`) and appends both. -/
def aiC4 : AI := applyOps (AI.init 3 4)
  [.addK (1,0) 4, .mkMine (0,1), .mkMine (1,1), .mkMine (2,1),
   .addK (1,2) 4, .mkSafe (0,3), .mkSafe (1,3), .mkSafe (2,3),
   .addK (1,1) 5]

/-- C4 counterexample: at the end of the last `add_knowledge` call the
knowledge collection holds five sentences of which the ones at positions 1 and
3 are structurally equal (same cell set and same count): the subset-inference
step runs *after* the prune step and appends its derivations without
re-pruning, so duplicates survive to the end of the call. -/
theorem C4_duplicates_counterexample :
    aiC4.knowledge.length = 5 ∧
    listSetEq (aiC4.knowledge.getD 1 ⟨[], 0⟩).cells (aiC4.knowledge.getD 3 ⟨[], 0⟩).cells ∧
    (aiC4.knowledge.getD 1 ⟨[], 0⟩).count = (aiC4.knowledge.getD 3 ⟨[], 0⟩).count := by
  decide

lemma pruneGo_subset :
    ∀ (l seen : List Sentence) (t : Sentence), t ∈ pruneGo seen l → t ∈ l := by
  intro l
  induction l with
  | nil => intro seen t ht; cases ht
  | cons s rest ih =>
      intro seen t ht
      by_cases hcond : s.cells = [] ∨ seen.any (fun r => setEqB r.cells s.cells)
      · simp only [pruneGo, if_pos hcond] at ht
        exact List.mem_cons_of_mem s (ih seen t ht)
      · simp only [pruneGo, if_neg hcond] at ht
        rcases List.mem_cons.mp ht with h | h
        · exact h ▸ List.mem_cons_self s rest
        · exact List.mem_cons_of_mem s (ih (s :: seen) t h)

lemma pruneGo_no_empty :
    ∀ (l seen : List Sentence) (t : Sentence), t ∈ pruneGo seen l → t.cells ≠ [] := by
  intro l
  induction l with
  | nil => intro seen t ht; cases ht
  | cons s rest ih =>
      intro seen t ht
      by_cases hcond : s.cells = [] ∨ seen.any (fun r => setEqB r.cells s.cells)
      · simp only [pruneGo, if_pos hcond] at ht
        exact ih seen t ht
      · simp only [pruneGo, if_neg hcond] at ht
        rcases List.mem_cons.mp ht with h | h
        · subst h; exact fun hnil => hcond (Or.inl hnil)
        · exact ih (s :: seen) t h

lemma pruneGo_not_seen :
    ∀ (l seen : List Sentence) (t : Sentence), t ∈ pruneGo seen l →
      ∀ u ∈ seen, ¬ listSetEq u.cells t.cells := by
  intro l
  induction l with
  | nil => intro seen t ht; cases ht
  | cons s rest ih =>
      intro seen t ht u hu
      by_cases hcond : s.cells = [] ∨ seen.any (fun r => setEqB r.cells s.cells)
      · simp only [pruneGo, if_pos hcond] at ht
        exact ih seen t ht u hu
      · simp only [pruneGo, if_neg hcond] at ht
        rcases List.mem_cons.mp ht with h | h
        · intro hEq
          apply hcond
          right
          rw [List.any_eq_true]
          refine ⟨u, hu, ?_⟩
          rw [h] at hEq
          simpa [setEqB] using hEq
        · exact ih (s :: seen) t h u (List.mem_cons_of_mem s hu)

lemma pruneGo_pairwise :
    ∀ (l seen : List Sentence),
      (pruneGo seen l).Pairwise (fun a b => ¬ listSetEq a.cells b.cells) := by
  intro l
  induction l with
  | nil => intro seen; simp [pruneGo]
  | cons s rest ih =>
      intro seen
      by_cases hcond : s.cells = [] ∨ seen.any (fun r => setEqB r.cells s.cells)
      · simp only [pruneGo, if_pos hcond]
        exact ih seen
      · simp only [pruneGo, if_neg hcond]
        rw [List.pairwise_cons]
        refine ⟨?_, ih (s :: seen)⟩
        intro t ht
        exact pruneGo_not_seen rest (s :: seen) t ht s (List.mem_cons_self s seen)

/-- C4 amended: the pruning guarantee holds at the point where the prune step
of `add_knowledge` finishes (i.e. just before subset inference): the knowledge
collection then contains no sentence with empty cells and no two sentences
with equal cell sets (hence no two structurally equal sentences).  The
subset-inference step that runs afterwards appends its derivations without
re-pruning, so the guarantee does not extend to the very end of the call
(see the counterexample); those duplicates are removed by the next call's
prune step. -/
theorem C4_pruned_knowledge_clean (ai : AI) (cell : Cell) (cnt : ℤ) :
    (∀ s ∈ (((ai.ingest cell cnt).closure).prune).knowledge, s.cells ≠ []) ∧
    (((ai.ingest cell cnt).closure).prune).knowledge.Pairwise
      (fun a b => ¬ listSetEq a.cells b.cells) :=
  ⟨fun s hs => pruneGo_no_empty _ [] s hs, pruneGo_pairwise _ []⟩

/-! ### The newly built sentence (C3) -/

lemma mem_nbStep (ai : AI) (acc : List Cell × ℤ) (c n : Cell) :
    n ∈ (nbStep ai acc c).1 ↔
      n ∈ acc.1 ∨ (n = c ∧ ai.is_cell_valid c = true ∧ c ∉ ai.mines ∧ c ∉ ai.moves_made) := by
  unfold nbStep
  split_ifs with hv hm hmv
  · simp [hm]
  · simp [hmv]
  · simp [List.mem_insert_iff, hv, hm, hmv, or_comm]
  · simp [hv]

lemma nb_foldl_cells (ai : AI) :
    ∀ (cand : List Cell) (acc : List Cell × ℤ) (n : Cell),
      n ∈ (cand.foldl (nbStep ai) acc).1 ↔
        n ∈ acc.1 ∨
          (n ∈ cand ∧ ai.is_cell_valid n = true ∧ n ∉ ai.mines ∧ n ∉ ai.moves_made) := by
  intro cand
  induction cand with
  | nil => intro acc n; simp
  | cons c cs ih =>
      intro acc n
      rw [List.foldl_cons, ih, mem_nbStep]
      constructor
      · rintro ((h | ⟨rfl, h2, h3, h4⟩) | ⟨h1, h2⟩)
        · exact Or.inl h
        · exact Or.inr ⟨List.mem_cons_self _ _, h2, h3, h4⟩
        · exact Or.inr ⟨List.mem_cons_of_mem c h1, h2⟩
      · rintro (h | ⟨hc, hP⟩)
        · exact Or.inl (Or.inl h)
        · rcases List.mem_cons.mp hc with rfl | hcs
          · exact Or.inl (Or.inr ⟨rfl, hP⟩)
          · exact Or.inr ⟨hcs, hP⟩

lemma nbStep_snd (ai : AI) (acc : List Cell × ℤ) (c : Cell) :
    (nbStep ai acc c).2 =
      if ai.is_cell_valid c = true ∧ c ∈ ai.mines then acc.2 - 1 else acc.2 := by
  unfold nbStep
  split_ifs <;> simp_all

lemma nb_foldl_count (ai : AI) :
    ∀ (cand : List Cell) (acc : List Cell × ℤ),
      (cand.foldl (nbStep ai) acc).2 =
        acc.2 - (cand.countP
          (fun n => decide (ai.is_cell_valid n = true ∧ n ∈ ai.mines)) : ℤ) := by
  intro cand
  induction cand with
  | nil => intro acc; simp
  | cons c cs ih =>
      intro acc
      rw [List.foldl_cons, ih, nbStep_snd, List.countP_cons]
      by_cases hc : ai.is_cell_valid c = true ∧ c ∈ ai.mines
      · rw [if_pos hc, decide_eq_true hc]
        simp only [if_pos rfl]
        push_cast
        ring
      · rw [if_neg hc, decide_eq_false hc]
        simp

lemma mem_shifted_offsets (cell n : Cell) :
    n ∈ offsets.map (fun o => (cell.1 + o.1, cell.2 + o.2)) ↔
      (n.1 - cell.1).natAbs ≤ 1 ∧ (n.2 - cell.2).natAbs ≤ 1 := by
  obtain ⟨nx, ny⟩ := n
  obtain ⟨cx, cy⟩ := cell
  simp only [offsets, List.map_cons, List.map_nil, List.mem_cons, List.not_mem_nil,
    or_false, Prod.mk.injEq]
  omega

/-- C3 counterexample: mark `(0,0)` itself a mine on a fresh 3×3 engine, then
reveal `(0,0)` with count 1.  None of the Chebyshev-distance-1 *neighbours* of
`(0,0)` is a known mine, so the claim predicts the appended count `1 - 0 = 1`;
but the Python loop also visits the offset `(0,0)` — the revealed cell itself,
which is a known mine here — and decrements, appending count `0`. -/
theorem C3_self_mine_counterexample :
    ((offsets.map (fun o => ((0:ℤ) + o.1, (0:ℤ) + o.2))).countP
        (fun n => decide (n ≠ ((0:ℤ),(0:ℤ)) ∧
          AI.is_cell_valid ((AI.init 3 3).mark_mine (0,0)) n = true ∧
          n ∈ ((AI.init 3 3).mark_mine (0,0)).mines)) = 0) ∧
    ((((AI.init 3 3).mark_mine (0,0)).ingest (0,0) 1).knowledge.getD 0 ⟨[], 0⟩).count = 0 ∧
    ((((AI.init 3 3).mark_mine (0,0)).ingest (0,0) 1).knowledge.getD 0 ⟨[], 0⟩).count ≠
      1 - (0 : ℤ) := by decide

/-- C3 amended: the sentence appended by `add_knowledge(cell, count)` has as
its cell set exactly the in-bounds coordinates at Chebyshev distance 1 from
`cell` (the cell itself excluded) that are neither known mines nor
already-made moves; and its count is `count` decremented by 1 for every
in-bounds known-mine coordinate of the full 3×3 block centred on `cell` — the
known-mine neighbours, plus one more when the revealed cell itself is an
in-bounds known mine (the Python loop does not skip the centre offset; see the
counterexample). -/
theorem C3_new_sentence_shape (ai : AI) (cell : Cell) (cnt : ℤ) :
    ((ai.ingest cell cnt).knowledge
        = (ai.recordMove cell).knowledge ++ [(ai.recordMove cell).buildSentence cell cnt]) ∧
    (∀ n : Cell, n ∈ ((ai.recordMove cell).buildSentence cell cnt).cells ↔
        (n ≠ cell ∧ (n.1 - cell.1).natAbs ≤ 1 ∧ (n.2 - cell.2).natAbs ≤ 1 ∧
         ai.is_cell_valid n = true ∧ n ∉ ai.mines ∧ n ∉ ai.moves_made)) ∧
    ((ai.recordMove cell).buildSentence cell cnt).count =
      cnt - ((offsets.map (fun o => (cell.1 + o.1, cell.2 + o.2))).countP
              (fun n => decide (ai.is_cell_valid n = true ∧ n ∈ ai.mines)) : ℤ) := by
  have hmines : (ai.recordMove cell).mines = ai.mines := rfl
  have hmoves : (ai.recordMove cell).moves_made = ai.moves_made.insert cell := rfl
  have hvalid : ∀ n, (ai.recordMove cell).is_cell_valid n = ai.is_cell_valid n :=
    fun _ => rfl
  refine ⟨rfl, ?_, ?_⟩
  · intro n
    show n ∈ (offsets.foldl
        (fun a o => nbStep (ai.recordMove cell) a (cell.1 + o.1, cell.2 + o.2)) ([], cnt)).1 ↔ _
    rw [← List.foldl_map (fun o : ℤ × ℤ => ((cell.1 + o.1, cell.2 + o.2) : Cell))
          (nbStep (ai.recordMove cell))]
    rw [nb_foldl_cells, mem_shifted_offsets, hvalid, hmines, hmoves]
    simp only [List.not_mem_nil, false_or, List.mem_insert_iff, not_or]
    constructor
    · rintro ⟨⟨hb1, hb2⟩, hv, hm, hcell, hmv⟩
      exact ⟨hcell, hb1, hb2, hv, hm, hmv⟩
    · rintro ⟨hcell, hb1, hb2, hv, hm, hmv⟩
      exact ⟨⟨hb1, hb2⟩, hv, hm, hcell, hmv⟩
  · show (offsets.foldl
        (fun a o => nbStep (ai.recordMove cell) a (cell.1 + o.1, cell.2 + o.2)) ([], cnt)).2 = _
    rw [← List.foldl_map (fun o : ℤ × ℤ => ((cell.1 + o.1, cell.2 + o.2) : Cell))
          (nbStep (ai.recordMove cell))]
    rw [nb_foldl_count]
    congr 2

/-! ### Subset inference (C1) -/

lemma length_lt_of_strict_subset {a b : List Cell} (hnd : a.Nodup)
    (hsub : a ⊆ b) (hns : ¬ b ⊆ a) : a.length < b.length := by
  have hx : ∃ x ∈ b, x ∉ a := by
    by_contra hcon
    push_neg at hcon
    exact hns fun x hx => hcon x hx
  obtain ⟨x, hxb, hxa⟩ := hx
  have hsubF : a.toFinset ⊆ b.toFinset := by
    intro y hy
    exact List.mem_toFinset.mpr (hsub (List.mem_toFinset.mp hy))
  have hss : a.toFinset ⊂ b.toFinset := by
    refine ⟨hsubF, fun hcon => ?_⟩
    exact hxa (List.mem_toFinset.mp (hcon (List.mem_toFinset.mpr hxb)))
  calc a.length = a.toFinset.card := (List.toFinset_card_of_nodup hnd).symm
    _ < b.toFinset.card := Finset.card_lt_card hss
    _ ≤ b.length := List.toFinset_card_le b

lemma deriveFrom_bigger {s1 s2 : Sentence} (hne : s2.cells ≠ [])
    (hlen : s2.cells.length < s1.cells.length) (hsub : s2.cells ⊆ s1.cells) :
    deriveFrom s1 s2 =
      some ⟨s1.cells.filter (fun c => decide (c ∉ s2.cells)), s1.count - s2.count⟩ := by
  unfold deriveFrom
  rw [if_neg fun h0 => hne (List.length_eq_zero.mp h0), if_pos ⟨hlen, hsub⟩]

lemma deriveFrom_smaller {s1 s2 : Sentence}
    (hlen : s1.cells.length < s2.cells.length) (hsub : s1.cells ⊆ s2.cells) :
    deriveFrom s1 s2 =
      some ⟨s2.cells.filter (fun c => decide (c ∉ s1.cells)), s2.count - s1.count⟩ := by
  unfold deriveFrom
  rw [if_neg (by omega), if_neg (fun h => by omega), if_pos ⟨hlen, hsub⟩]

lemma mem_inferOne {s1 t : Sentence} (h1 : s1.cells.length ≠ 0) {l : List Sentence}
    {s2 : Sentence} (h2 : s2 ∈ l) (hd : deriveFrom s1 s2 = some t) :
    t ∈ inferOne s1 l := by
  unfold inferOne
  rw [if_neg h1]
  exact List.mem_filterMap.mpr ⟨s2, h2, hd⟩

lemma inferPairs_derives :
    ∀ (K : List Sentence) (s1 s2 : Sentence), s1 ∈ K → s2 ∈ K →
      s2.cells ≠ [] → s2.cells.length < s1.cells.length → s2.cells ⊆ s1.cells →
      (⟨s1.cells.filter (fun c => decide (c ∉ s2.cells)), s1.count - s2.count⟩ : Sentence)
        ∈ inferPairs K := by
  intro K
  induction K with
  | nil => intro s1 s2 h1; cases h1
  | cons t rest ih =>
      intro s1 s2 h1 h2 hne hlen hsub
      simp only [inferPairs]
      rcases List.mem_cons.mp h1 with e1 | m1
      · apply List.mem_append_left
        subst e1
        exact mem_inferOne (by omega) h2 (deriveFrom_bigger hne hlen hsub)
      · rcases List.mem_cons.mp h2 with e2 | m2
        · apply List.mem_append_left
          subst e2
          exact mem_inferOne (fun h0 => hne (List.length_eq_zero.mp h0))
            (List.mem_cons_of_mem s2 m1) (deriveFrom_smaller hlen hsub)
        · exact List.mem_append_right _ (ih s1 s2 m1 m2 hne hlen hsub)

/-- The engine state of the spec's subset-inference scenario: Constraints
`A = {(0,0),(0,1),(0,2)} = 1` and `B = {(0,0),(0,1)} = 1` held on a 5×5
grid. -/
def aiC1 : AI := ⟨5, 5, [], [], [], [⟨[(0,0),(0,1),(0,2)], 1⟩, ⟨[(0,0),(0,1)], 1⟩]⟩

/-- C1: (general part) during any `add_knowledge` call, for every two
sentences held when the subset-inference step runs (i.e. in the knowledge
collection left by the prune step) such that the second's cell set is a
strict subset of the first's, the derived sentence
`(S1.cells − S2.cells, S1.count − S2.count)` is in the final knowledge
collection of the call.  (Particular part) with `A = {(0,0),(0,1),(0,2)} = 1`
and `B = {(0,0),(0,1)} = 1` held, one `add_knowledge`-triggered inference
pass derives `{(0,2)} = 0`, and the closure scan of the following
`add_knowledge` call then marks `(0,2)` safe. -/
theorem C1_subset_inference :
    (∀ (ai : AI) (cell : Cell) (cnt : ℤ) (s1 s2 : Sentence),
      s1 ∈ (((ai.ingest cell cnt).closure).prune).knowledge →
      s2 ∈ (((ai.ingest cell cnt).closure).prune).knowledge →
      s2.cells.Nodup → s2.cells ⊆ s1.cells → ¬ s1.cells ⊆ s2.cells →
      (⟨s1.cells.filter (fun c => decide (c ∉ s2.cells)), s1.count - s2.count⟩ : Sentence)
        ∈ (ai.add_knowledge cell cnt).knowledge) ∧
    ((⟨[(0,2)], 0⟩ : Sentence) ∈ (aiC1.add_knowledge (4,4) 0).knowledge ∧
     ((0,2) : Cell) ∈ ((aiC1.add_knowledge (4,4) 0).add_knowledge (0,4) 0).safes) := by
  constructor
  · intro ai cell cnt s1 s2 h1 h2 hnd hsub hns
    have hne : s2.cells ≠ [] := pruneGo_no_empty _ [] s2 h2
    have hlen : s2.cells.length < s1.cells.length :=
      length_lt_of_strict_subset hnd hsub hns
    exact List.mem_append_right _ (inferPairs_derives _ s1 s2 h1 h2 hne hlen hsub)
  · exact ⟨by decide, by decide⟩

theorem C1_subset_inference_witness :
    (⟨[(0,2)], 0⟩ : Sentence) ∈ (aiC1.add_knowledge (4,4) 0).knowledge := by
  have h := C1_subset_inference.1 aiC1 (4,4) 0
    ⟨[(0,0),(0,1),(0,2)], 1⟩ ⟨[(0,0),(0,1)], 1⟩
    (by decide) (by decide) (by decide) (by decide) (by decide)
  simpa using h

/-! ### No known mine inside any held sentence (C10) -/

/-- No sentence in `knowledge` contains a cell of `mines`. -/
def MinesFree (ai : AI) : Prop :=
  ∀ s ∈ ai.knowledge, ∀ c ∈ s.cells, c ∉ ai.mines

/-- Every held sentence's cell list is duplicate-free (Python sets). -/
def CellsNodup (ai : AI) : Prop := ∀ s ∈ ai.knowledge, s.cells.Nodup

/-- Invariant maintained by every public engine operation. -/
def EngineInv (ai : AI) : Prop := MinesFree ai ∧ CellsNodup ai

lemma inv_mark_mine (ai : AI) (c : Cell) (h : EngineInv ai) :
    EngineInv (ai.mark_mine c) := by
  obtain ⟨hmf, hnd⟩ := h
  constructor
  · intro s' hs' x hx hmem
    simp only [AI.mark_mine, List.mem_map] at hs'
    obtain ⟨s, hs, rfl⟩ := hs'
    have hndc := hnd s hs
    have hx' : x ≠ c ∧ x ∈ s.cells := by
      by_cases hc : c ∈ s.cells
      · simp only [Sentence.mark_mine, if_pos hc] at hx
        exact (hndc.mem_erase_iff).mp hx
      · simp only [Sentence.mark_mine, if_neg hc] at hx
        exact ⟨fun he => hc (he ▸ hx), hx⟩
    have hmem' : x ∈ ai.mines.insert c := hmem
    rcases List.mem_insert_iff.mp hmem' with he | hm
    · exact hx'.1 he
    · exact hmf s hs x hx'.2 hm
  · intro s' hs'
    simp only [AI.mark_mine, List.mem_map] at hs'
    obtain ⟨s, hs, rfl⟩ := hs'
    by_cases hc : c ∈ s.cells
    · simp only [Sentence.mark_mine, if_pos hc]
      exact (hnd s hs).erase c
    · simp only [Sentence.mark_mine, if_neg hc]
      exact hnd s hs

lemma inv_mark_safe (ai : AI) (c : Cell) (h : EngineInv ai) :
    EngineInv (ai.mark_safe c) := by
  obtain ⟨hmf, hnd⟩ := h
  constructor
  · intro s' hs' x hx hmem
    simp only [AI.mark_safe, List.mem_map] at hs'
    obtain ⟨s, hs, rfl⟩ := hs'
    simp only [Sentence.mark_safe] at hx
    exact hmf s hs x (List.erase_subset c s.cells hx) hmem
  · intro s' hs'
    simp only [AI.mark_safe, List.mem_map] at hs'
    obtain ⟨s, hs, rfl⟩ := hs'
    simp only [Sentence.mark_safe]
    exact (hnd s hs).erase c

lemma inv_foldl {α : Type} (f : AI → α → AI)
    (hf : ∀ ai x, EngineInv ai → EngineInv (f ai x)) :
    ∀ (l : List α) (ai : AI), EngineInv ai → EngineInv (l.foldl f ai) := by
  intro l
  induction l with
  | nil => intro ai h; exact h
  | cons x xs ih => intro ai h; exact ih (f ai x) (hf ai x h)

lemma buildSentence_cells_not_mine (ai2 : AI) (cell : Cell) (cnt : ℤ) :
    ∀ x ∈ (ai2.buildSentence cell cnt).cells, x ∉ ai2.mines := by
  intro x hx
  have hx' : x ∈ ((offsets.map
      (fun o : ℤ × ℤ => ((cell.1 + o.1, cell.2 + o.2) : Cell))).foldl
        (nbStep ai2) ([], cnt)).1 := by
    rw [List.foldl_map]
    exact hx
  rw [nb_foldl_cells] at hx'
  rcases hx' with h0 | ⟨_, _, hm, _⟩
  · cases h0
  · exact hm

lemma nb_foldl_nodup (ai : AI) :
    ∀ (cand : List Cell) (acc : List Cell × ℤ), acc.1.Nodup →
      (cand.foldl (nbStep ai) acc).1.Nodup := by
  intro cand
  induction cand with
  | nil => intro acc h; exact h
  | cons c cs ih =>
      intro acc h
      rw [List.foldl_cons]
      apply ih
      unfold nbStep
      split_ifs
      · exact h
      · exact h
      · show (acc.1.insert c).Nodup
        by_cases hc : c ∈ acc.1
        · rw [List.insert_of_mem hc]; exact h
        · rw [List.insert_of_not_mem hc]; exact List.nodup_cons.mpr ⟨hc, h⟩
      · exact h

lemma buildSentence_cells_nodup (ai2 : AI) (cell : Cell) (cnt : ℤ) :
    (ai2.buildSentence cell cnt).cells.Nodup := by
  have h : ((offsets.map
      (fun o : ℤ × ℤ => ((cell.1 + o.1, cell.2 + o.2) : Cell))).foldl
        (nbStep ai2) ([], cnt)).1.Nodup :=
    nb_foldl_nodup ai2 _ _ List.nodup_nil
  rw [List.foldl_map] at h
  exact h

lemma inv_ingest (ai : AI) (cell : Cell) (cnt : ℤ) (h : EngineInv ai) :
    EngineInv (ai.ingest cell cnt) := by
  have h2 : EngineInv (ai.recordMove cell) :=
    inv_mark_safe { ai with moves_made := ai.moves_made.insert cell } cell h
  constructor
  · intro s hs x hx hmem
    have hs' : s ∈ (ai.recordMove cell).knowledge ++
        [(ai.recordMove cell).buildSentence cell cnt] := hs
    rcases List.mem_append.mp hs' with hK | hnew
    · exact h2.1 s hK x hx hmem
    · rw [List.mem_singleton] at hnew
      subst hnew
      exact buildSentence_cells_not_mine _ cell cnt x hx hmem
  · intro s hs
    have hs' : s ∈ (ai.recordMove cell).knowledge ++
        [(ai.recordMove cell).buildSentence cell cnt] := hs
    rcases List.mem_append.mp hs' with hK | hnew
    · exact h2.2 s hK
    · rw [List.mem_singleton] at hnew
      subst hnew
      exact buildSentence_cells_nodup _ cell cnt

lemma inv_closureStep (ai : AI) (i : ℕ) (h : EngineInv ai) :
    EngineInv (closureStep ai i) :=
  inv_foldl AI.mark_safe inv_mark_safe _ _
    (inv_foldl AI.mark_mine inv_mark_mine _ _ h)

lemma inv_closure_pass (ai : AI) (h : EngineInv ai) : EngineInv ai.closure :=
  inv_foldl closureStep inv_closureStep _ ai h

lemma inv_prune (ai : AI) (h : EngineInv ai) : EngineInv ai.prune := by
  obtain ⟨hmf, hnd⟩ := h
  constructor
  · intro s hs x hx hm
    exact hmf s (pruneGo_subset _ [] s hs) x hx hm
  · intro s hs
    exact hnd s (pruneGo_subset _ [] s hs)

lemma deriveFrom_cells_sublist {s1 s2 t : Sentence} (hd : deriveFrom s1 s2 = some t) :
    t.cells.Sublist s1.cells ∨ t.cells.Sublist s2.cells := by
  unfold deriveFrom at hd
  split_ifs at hd
  · rcases Option.some.inj hd with rfl
    exact Or.inl (List.filter_sublist _)
  · rcases Option.some.inj hd with rfl
    exact Or.inr (List.filter_sublist _)

lemma inferPairs_sublist :
    ∀ (K : List Sentence) (t : Sentence), t ∈ inferPairs K →
      ∃ u ∈ K, t.cells.Sublist u.cells := by
  intro K
  induction K with
  | nil => intro t ht; cases ht
  | cons s rest ih =>
      intro t ht
      simp only [inferPairs] at ht
      rcases List.mem_append.mp ht with h1 | h2
      · unfold inferOne at h1
        split_ifs at h1
        · cases h1
        · obtain ⟨s2, hs2, hd⟩ := List.mem_filterMap.mp h1
          rcases deriveFrom_cells_sublist hd with h | h
          · exact ⟨s, List.mem_cons_self s rest, h⟩
          · exact ⟨s2, hs2, h⟩
      · obtain ⟨u, hu, hsub⟩ := ih t h2
        exact ⟨u, List.mem_cons_of_mem s hu, hsub⟩

lemma inv_infer (ai : AI) (h : EngineInv ai) : EngineInv ai.infer := by
  obtain ⟨hmf, hnd⟩ := h
  constructor
  · intro s hs x hx hm
    rcases List.mem_append.mp hs with hK | hN
    · exact hmf s hK x hx hm
    · obtain ⟨u, hu, hsub⟩ := inferPairs_sublist _ s hN
      exact hmf u hu x (hsub.subset hx) hm
  · intro s hs
    rcases List.mem_append.mp hs with hK | hN
    · exact hnd s hK
    · obtain ⟨u, hu, hsub⟩ := inferPairs_sublist _ s hN
      exact hsub.nodup (hnd u hu)

lemma inv_add_knowledge (ai : AI) (cell : Cell) (cnt : ℤ) (h : EngineInv ai) :
    EngineInv (ai.add_knowledge cell cnt) :=
  inv_infer _ (inv_prune _ (inv_closure_pass _ (inv_ingest ai cell cnt h)))

lemma inv_applyOp (ai : AI) (op : EngineOp) (h : EngineInv ai) :
    EngineInv (applyOp ai op) := by
  cases op with
  | mkMine c => exact inv_mark_mine ai c h
  | mkSafe c => exact inv_mark_safe ai c h
  | addK c n => exact inv_add_knowledge ai c n h
  | safeMove => exact h
  | randomMove => exact h

lemma inv_applyOps (ops : List EngineOp) (ai : AI) (h : EngineInv ai) :
    EngineInv (applyOps ai ops) :=
  inv_foldl applyOp inv_applyOp ops ai h

lemma inv_init (h w : ℤ) : EngineInv (AI.init h w) :=
  ⟨fun s hs => (List.not_mem_nil s hs).elim, fun s hs => (List.not_mem_nil s hs).elim⟩

/-- C10: (invariant part) after any sequence of public engine operations on a
fresh engine, no sentence held in `knowledge` contains a cell of `mines`:
`mark_mine` removes the cell from every held sentence while adding it to
`mines`, newly built sentences exclude known mines, and subset-inference
results use only cells of existing sentences.  (Failure of the safes
analogue) the same is not true of `safes`: `add_knowledge` only excludes
`moves_made`, not `safes`, when building a new sentence — in the concrete 1×4
trace below, `(0,1)` is already in `safes` yet is put into the new sentence
built for `(0,2)`. -/
theorem C10_no_known_mine_in_knowledge :
    (∀ (h w : ℤ) (ops : List EngineOp),
      ∀ s ∈ (applyOps (AI.init h w) ops).knowledge,
        ∀ c ∈ s.cells, c ∉ (applyOps (AI.init h w) ops).mines) ∧
    (((0,1) : Cell) ∈ (applyOps (AI.init 1 4) [.addK (0,0) 0, .addK (0,2) 1]).safes ∧
     ((0,1) : Cell) ∈
       ((applyOps (AI.init 1 4) [.addK (0,0) 0, .addK (0,2) 1]).knowledge.getD
         0 ⟨[], 0⟩).cells) := by
  constructor
  · intro h w ops
    exact (inv_applyOps ops (AI.init h w) (inv_init h w)).1
  · exact ⟨by decide, by decide⟩

theorem C10_no_known_mine_in_knowledge_witness :
    ((0,3) : Cell) ∉ (applyOps (AI.init 1 4) [.addK (0,0) 0, .addK (0,2) 1]).mines :=
  C10_no_known_mine_in_knowledge.1 1 4 [.addK (0,0) 0, .addK (0,2) 1]
    ((applyOps (AI.init 1 4) [.addK (0,0) 0, .addK (0,2) 1]).knowledge.getD 0 ⟨[], 0⟩)
    (by decide) (0,3) (by decide)

/-! ### Remaining witnesses -/

theorem C3_new_sentence_shape_witness :
    ((AI.init 2 2).ingest (0,0) 1).knowledge
      = ((AI.init 2 2).recordMove (0,0)).knowledge ++
        [((AI.init 2 2).recordMove (0,0)).buildSentence (0,0) 1] :=
  (C3_new_sentence_shape (AI.init 2 2) (0,0) 1).1

theorem C4_pruned_knowledge_clean_witness :
    (((((AI.init 2 2).ingest (0,0) 1).closure).prune).knowledge.getD 0 ⟨[], 0⟩).cells ≠ [] :=
  (C4_pruned_knowledge_clean (AI.init 2 2) (0,0) 1).1 _ (by decide)

theorem C7_fact_sets_monotone_witness :
    (⟨2, 2, [], [(0,1)], [], []⟩ : AI).safes ⊆
      (applyOps (⟨2, 2, [], [(0,1)], [], []⟩ : AI) [.mkMine (1,1), .addK (0,0) 0]).safes :=
  (C7_fact_sets_monotone [.mkMine (1,1), .addK (0,0) 0] ⟨2, 2, [], [(0,1)], [], []⟩).1
